import Mathlib

/-!
Verification of the `laser_frame` point streamer (src/lib.rs).

The library is a single state machine: a `Streamer` owning a frame (list of
points) plus resumption state, and an iterator `Points` that cycles the frame
forever, inserting a `Blank` point at every discontinuous jump (wrap-around or
frame replacement).

The embedding below mirrors the Rust code field-for-field.  The Rust `Points`
iterator borrows the streamer's fields mutably, so a step of the iterator is
modelled as a function `Streamer P → Option (Point P) × Streamer P`; the Rust
`loop { ... }` body becomes `Points.loopBody` (returning `Sum.inl` for Rust
`return` and `Sum.inr` for `continue`), iterated by `Points.nextFuel`.  The
fuel `s.next_start + 2` is provably sufficient: `nextFuel_ge_two` shows any
fuel ≥ 2 gives the same result as the unbounded loop.
-/

namespace LaserFrame

/-- A command to submit to the laser - either a blank point or a regular
coloured point.  Mirrors `enum Point<P>` in src/lib.rs. -/
inductive Point (P : Type) where
  | Regular (p : P)
  | Blank (p : P)
  deriving DecidableEq, Repr

/-- The streamer state.  Mirrors `struct Streamer<P>` in src/lib.rs:
`frame: Vec<P>`, `last_point: Option<P>`, `blank_last_point: bool`,
`next_start: usize`. -/
structure Streamer (P : Type) where
  frame : List P
  last_point : Option P
  blank_last_point : Bool
  next_start : Nat
  deriving DecidableEq, Repr

variable {P : Type}

/-- `Streamer::from_frame`: frame pre-loaded, fresh resumption state. -/
def Streamer.from_frame (frame : List P) : Streamer P :=
  { frame := frame, last_point := none, blank_last_point := false,
    next_start := 0 }

/-- `Streamer::new`: delegates to `from_frame(vec![])`. -/
def Streamer.new : Streamer P :=
  Streamer.from_frame []

/-- `Streamer::submit_frame`: replace the frame, reset the resume index,
set the pending-blank flag.  `last_point` is kept. -/
def Streamer.submit_frame (s : Streamer P) (frame : List P) : Streamer P :=
  { s with frame := frame, next_start := 0, blank_last_point := true }

/-- `Streamer::next_points` hands out a `Points` iterator borrowing the
streamer's fields in place; it produces no point and changes no state, so in
this embedding it is the identity on the state. -/
def Streamer.next_points (s : Streamer P) : Streamer P :=
  s

/-- The tail of the Rust loop body after the pending-blank check: the
empty-frame check, the wrap check (`Sum.inr` = Rust `continue`), and the
regular-point emission. -/
def Points.loopRest (s : Streamer P) : (Option (Point P) × Streamer P) ⊕ Streamer P :=
  if s.frame.isEmpty then
    Sum.inl (none, s)
  else
    if h : s.frame.length ≤ s.next_start then
      Sum.inr { s with blank_last_point := true, next_start := 0 }
    else
      let p := s.frame.get ⟨s.next_start, Nat.lt_of_not_le h⟩
      Sum.inl (some (Point.Regular p),
        { s with next_start := s.next_start + 1, last_point := some p })

/-- One iteration of the Rust `loop` in `<Points as Iterator>::next`:
first the pending-blank check (clear the flag; if a last point exists, return
a blank copy of it), then `loopRest`. -/
def Points.loopBody (s : Streamer P) : (Option (Point P) × Streamer P) ⊕ Streamer P :=
  if s.blank_last_point then
    let s1 := { s with blank_last_point := false }
    match s.last_point with
    | some p => Sum.inl (some (Point.Blank p), s1)
    | none => Points.loopRest s1
  else
    Points.loopRest s

/-- The Rust `loop`, iterated with explicit fuel (out of fuel: no item,
state returned as-is; this case is provably never reached from the fuel used
in `Points.next`, see `nextFuel_ge_two`). -/
def Points.nextFuel : Nat → Streamer P → Option (Point P) × Streamer P
  | 0, s => (none, s)
  | n + 1, s =>
    match Points.loopBody s with
    | Sum.inl r => r
    | Sum.inr s2 => Points.nextFuel n s2

/-- `<Points as Iterator>::next`, as a state transformer.  The fuel
`s.next_start + 2` always suffices (`nextFuel_ge_two`), so this equals the
unbounded Rust loop. -/
def Points.next (s : Streamer P) : Option (Point P) × Streamer P :=
  Points.nextFuel (s.next_start + 2) s

/-- Pull `n` items from the iterator: call `next` `n` times, collecting the
yielded points in order (a `none` step yields nothing). -/
def pullN : Streamer P → Nat → List (Point P) × Streamer P
  | s, 0 => ([], s)
  | s, n + 1 =>
    match Points.next s with
    | (none, s2) => pullN s2 n
    | (some p, s2) =>
      let r := pullN s2 n
      (p :: r.fst, r.snd)

/-- The last point recorded after feeding a list of regular emissions,
starting from `lp`: the last element of the list if there is one, else `lp`. -/
def lastAfter (lp : Option P) : List P → Option P
  | [] => lp
  | x :: l => lastAfter (some x) l

/-- Whether an output item is a blank. -/
def isBlank : Point P → Bool
  | Point.Blank _ => true
  | Point.Regular _ => false

/-- Whether a list of output items contains two blanks in a row. -/
def noAdjacentBlanks : List (Point P) → Bool
  | [] => true
  | [_] => true
  | a :: b :: l => (!isBlank a || !isBlank b) && noAdjacentBlanks (b :: l)

/-- A public operation on a live `Streamer`: pull one item from its `Points`
iterator, or submit a new frame. -/
inductive Op (P : Type) where
  | pull
  | submit (frame : List P)
  deriving DecidableEq, Repr

/-- Execute a sequence of operations, collecting all yielded items in order. -/
def run : Streamer P → List (Op P) → List (Point P)
  | _, [] => []
  | s, Op.submit f :: ops => run (s.submit_frame f) ops
  | s, Op.pull :: ops =>
    match Points.next s with
    | (none, s2) => run s2 ops
    | (some p, s2) => p :: run s2 ops

/-- `BlanksGrounded E l`: every blank in `l` carries either a payload in `E`
or the payload of a regular point appearing strictly earlier in `l`. -/
inductive BlanksGrounded : (P → Prop) → List (Point P) → Prop where
  | nil (E : P → Prop) : BlanksGrounded E []
  | reg (E : P → Prop) (x : P) (l : List (Point P)) :
      BlanksGrounded (fun q => E q ∨ q = x) l →
      BlanksGrounded E (Point.Regular x :: l)
  | blank (E : P → Prop) (x : P) (l : List (Point P)) :
      E x → BlanksGrounded E l →
      BlanksGrounded E (Point.Blank x :: l)

/-- The streamer states reachable through the public operations: the two
constructors, frame submission, and iterator steps. -/
inductive Reachable : Streamer P → Prop where
  | new : Reachable (Streamer.new (P := P))
  | from_frame (f : List P) : Reachable (Streamer.from_frame f)
  | submit {s : Streamer P} (f : List P) :
      Reachable s → Reachable (s.submit_frame f)
  | step {s : Streamer P} : Reachable s → Reachable (Points.next s).snd

/-- The loop body signals `continue` only at a wrap: frame non-empty, resume
index past the end; the continued state has the flag set and index 0. -/
theorem loopRest_inr {s t : Streamer P} (h : Points.loopRest s = Sum.inr t) :
    t = { s with blank_last_point := true, next_start := 0 } ∧
      s.frame ≠ [] ∧ s.frame.length ≤ s.next_start := by
  unfold Points.loopRest at h
  split at h
  · simp_all
  · split at h
    · simp_all [List.isEmpty_iff]
    · simp_all

theorem loopBody_inr {s t : Streamer P} (h : Points.loopBody s = Sum.inr t) :
    t = { s with blank_last_point := true, next_start := 0 } ∧
      s.frame ≠ [] ∧ s.frame.length ≤ s.next_start := by
  rcases s with ⟨f, lp, b, i⟩
  cases b with
  | false =>
    have := loopRest_inr (by simpa [Points.loopBody] using h)
    simpa using this
  | true =>
    cases lp with
    | some p => simp [Points.loopBody] at h
    | none =>
      have := loopRest_inr (by simpa [Points.loopBody] using h)
      simpa using this

/-- From a continued (wrap) state the loop body always returns. -/
theorem loopBody_after_inr {s t : Streamer P} (h : Points.loopBody s = Sum.inr t) :
    ∃ r, Points.loopBody t = Sum.inl r := by
  obtain ⟨ht, hne, _⟩ := loopBody_inr h
  subst ht
  rcases s with ⟨f, lp, b, i⟩
  cases lp with
  | none =>
    refine ⟨?_, ?_⟩
    · exact (some (Point.Regular (f.get ⟨0, List.length_pos.mpr hne⟩)),
        { frame := f, last_point := some (f.get ⟨0, List.length_pos.mpr hne⟩),
          blank_last_point := false, next_start := 1 })
    · simp only [Points.loopBody, if_true, Points.loopRest]
      simp [List.isEmpty_iff, hne, Nat.not_le.mpr (List.length_pos.mpr hne)]
  | some p =>
    exact ⟨(some (Point.Blank p),
      { frame := f, last_point := some p, blank_last_point := false,
        next_start := 0 }), by simp [Points.loopBody]⟩

theorem nextFuel_succ (n : Nat) (s : Streamer P) :
    Points.nextFuel (n + 1) s =
      match Points.loopBody s with
      | Sum.inl r => r
      | Sum.inr s2 => Points.nextFuel n s2 :=
  rfl

/-- If the first loop iteration returns, `next` returns that value. -/
theorem next_inl {s : Streamer P} {r} (h : Points.loopBody s = Sum.inl r) :
    Points.next s = r := by
  unfold Points.next
  rw [nextFuel_succ, h]

/-- If the first loop iteration continues and the second returns, `next`
returns the second iteration's value. -/
theorem next_inr {s t : Streamer P} {r} (h : Points.loopBody s = Sum.inr t)
    (h2 : Points.loopBody t = Sum.inl r) : Points.next s = r := by
  unfold Points.next
  rw [nextFuel_succ, h]
  show Points.nextFuel (s.next_start + 1) t = r
  rw [nextFuel_succ, h2]

/-- Any fuel ≥ 2 computes the same result as `Points.next`: the bounded
iteration is not an artifact, the Rust loop returns within two iterations. -/
theorem nextFuel_ge_two {n : Nat} (s : Streamer P) (h : 2 ≤ n) :
    Points.nextFuel n s = Points.next s := by
  obtain ⟨m, rfl⟩ : ∃ m, n = m + 2 := ⟨n - 2, by omega⟩
  cases hb : Points.loopBody s with
  | inl r =>
    rw [show m + 2 = (m + 1) + 1 from rfl, nextFuel_succ, hb, next_inl hb]
  | inr t =>
    obtain ⟨r, hr⟩ := loopBody_after_inr hb
    rw [show m + 2 = (m + 1) + 1 from rfl, nextFuel_succ, hb]
    show Points.nextFuel (m + 1) t = Points.next s
    rw [nextFuel_succ, hr, next_inr hb hr]

/-- With the pending-blank flag set and a last point recorded, the loop body
immediately yields a blank copy of the last point (clearing the flag). -/
theorem loopBody_blank_flag (f : List P) (p : P) (i : Nat) :
    Points.loopBody ⟨f, some p, true, i⟩ =
      Sum.inl (some (Point.Blank p), ⟨f, some p, false, i⟩) :=
  rfl

/-- With the flag set but no last point, the body behaves as with the flag
clear (the flag is dropped without any yield). -/
theorem loopBody_flag_none (f : List P) (i : Nat) :
    Points.loopBody ⟨f, none, true, i⟩ = Points.loopBody ⟨f, none, false, i⟩ :=
  rfl

/-- On an empty frame with the flag clear, the body returns `none` and leaves
the state untouched. -/
theorem loopBody_empty (lp : Option P) (i : Nat) :
    Points.loopBody ⟨[], lp, false, i⟩ = Sum.inl (none, ⟨[], lp, false, i⟩) :=
  rfl

/-- With the flag clear and the resume index in range, the body yields the
regular point at the index, advancing the index and recording the point. -/
theorem loopBody_regular {f : List P} (lp : Option P) {i : Nat}
    (h : i < f.length) :
    Points.loopBody ⟨f, lp, false, i⟩ =
      Sum.inl (some (Point.Regular (f.get ⟨i, h⟩)),
        ⟨f, some (f.get ⟨i, h⟩), false, i + 1⟩) := by
  have hne : f ≠ [] := List.ne_nil_of_length_pos (Nat.lt_of_le_of_lt (Nat.zero_le i) h)
  simp only [Points.loopBody, Bool.false_eq_true, if_false, Points.loopRest]
  rw [if_neg (fun hc => hne (List.isEmpty_iff.mp hc)),
    dif_neg (Nat.not_le.mpr h)]

/-- With the flag clear, a non-empty frame and the resume index past the end,
the body signals the wrap-around `continue`. -/
theorem loopBody_wrap {f : List P} (lp : Option P) {i : Nat} (hne : f ≠ [])
    (hle : f.length ≤ i) :
    Points.loopBody ⟨f, lp, false, i⟩ = Sum.inr ⟨f, lp, true, 0⟩ := by
  simp only [Points.loopBody, Bool.false_eq_true, if_false, Points.loopRest]
  rw [if_neg (fun hc => hne (List.isEmpty_iff.mp hc)), dif_pos hle]

/-- `next` on a pending blank with a recorded last point: yield `Blank p`. -/
theorem next_blank_flag (f : List P) (p : P) (i : Nat) :
    Points.next ⟨f, some p, true, i⟩ =
      (some (Point.Blank p), ⟨f, some p, false, i⟩) :=
  next_inl (loopBody_blank_flag f p i)

/-- `next` on a pending blank with no recorded last point equals `next` with
the flag clear: the phantom blank is skipped within the same call. -/
theorem next_flag_none (f : List P) (i : Nat) :
    Points.next ⟨f, none, true, i⟩ = Points.next ⟨f, none, false, i⟩ := by
  unfold Points.next
  rw [nextFuel_succ, nextFuel_succ, loopBody_flag_none]

/-- `next` on an empty frame with the flag clear: no item, state untouched. -/
theorem next_empty (lp : Option P) (i : Nat) :
    Points.next ⟨[], lp, false, i⟩ = (none, ⟨[], lp, false, i⟩) :=
  next_inl (loopBody_empty lp i)

/-- `next` with the flag clear and the index in range: yield the regular
point at the index. -/
theorem next_regular {f : List P} (lp : Option P) {i : Nat} (h : i < f.length) :
    Points.next ⟨f, lp, false, i⟩ =
      (some (Point.Regular (f.get ⟨i, h⟩)),
        ⟨f, some (f.get ⟨i, h⟩), false, i + 1⟩) :=
  next_inl (loopBody_regular lp h)

/-- `next` at a wrap with a recorded last point: yield `Blank p`, reset the
index to 0. -/
theorem next_wrap {f : List P} (p : P) {i : Nat} (hne : f ≠ [])
    (hle : f.length ≤ i) :
    Points.next ⟨f, some p, false, i⟩ =
      (some (Point.Blank p), ⟨f, some p, false, 0⟩) :=
  next_inr (loopBody_wrap (some p) hne hle) (loopBody_blank_flag f p 0)

/-- `next` at a wrap with no recorded last point: no blank is emitted, the
first point of the frame is yielded directly. -/
theorem next_wrap_none {f : List P} {i : Nat} (hne : f ≠ [])
    (hle : f.length ≤ i) :
    Points.next ⟨f, none, false, i⟩ =
      (some (Point.Regular (f.get ⟨0, List.length_pos.mpr hne⟩)),
        ⟨f, some (f.get ⟨0, List.length_pos.mpr hne⟩), false, 1⟩) := by
  refine next_inr (loopBody_wrap none hne hle) ?_
  rw [loopBody_flag_none, loopBody_regular none (List.length_pos.mpr hne)]

/-- Complete case analysis of one iterator step: `next` either (A) returns
nothing on an empty frame, (B) discharges a pending blank, (C) emits the
wrap-around blank, or (D) emits a regular point. -/
theorem next_char (s : Streamer P) :
    (s.frame = [] ∧ Points.next s = (none, { s with blank_last_point := false })) ∨
    (s.blank_last_point = true ∧ ∃ p, s.last_point = some p ∧
      Points.next s = (some (Point.Blank p), { s with blank_last_point := false })) ∨
    (s.blank_last_point = false ∧ s.frame ≠ [] ∧ s.frame.length ≤ s.next_start ∧
      ∃ p, s.last_point = some p ∧
        Points.next s = (some (Point.Blank p), ⟨s.frame, some p, false, 0⟩)) ∨
    (∃ i, ∃ h : i < s.frame.length,
      Points.next s = (some (Point.Regular (s.frame.get ⟨i, h⟩)),
        ⟨s.frame, some (s.frame.get ⟨i, h⟩), false, i + 1⟩) ∧
      (i = s.next_start ∨
        (s.last_point = none ∧ s.frame.length ≤ s.next_start ∧ i = 0))) := by
  rcases s with ⟨f, lp, b, i⟩
  cases b with
  | true =>
    cases lp with
    | some p =>
      exact Or.inr (Or.inl ⟨rfl, p, rfl, next_blank_flag f p i⟩)
    | none =>
      rcases eq_or_ne f [] with hf | hf
      · subst hf
        exact Or.inl ⟨rfl, by rw [next_flag_none, next_empty]⟩
      · rcases Nat.lt_or_ge i f.length with h | h
        · refine Or.inr (Or.inr (Or.inr ⟨i, h, ?_, Or.inl rfl⟩))
          rw [next_flag_none, next_regular none h]
        · refine Or.inr (Or.inr (Or.inr
            ⟨0, List.length_pos.mpr hf, ?_, Or.inr ⟨rfl, h, rfl⟩⟩))
          rw [next_flag_none, next_wrap_none hf h]
  | false =>
    rcases eq_or_ne f [] with hf | hf
    · subst hf
      exact Or.inl ⟨rfl, next_empty lp i⟩
    · rcases Nat.lt_or_ge i f.length with h | h
      · exact Or.inr (Or.inr (Or.inr ⟨i, h, next_regular lp h, Or.inl rfl⟩))
      · cases lp with
        | some p =>
          exact Or.inr (Or.inr (Or.inl ⟨rfl, hf, h, p, rfl, next_wrap p hf h⟩))
        | none =>
          exact Or.inr (Or.inr (Or.inr ⟨0, List.length_pos.mpr hf,
            next_wrap_none hf h, Or.inr ⟨rfl, h, rfl⟩⟩))

/-- Every exit path of `next` leaves the pending-blank flag clear. -/
theorem next_flag_clear (s : Streamer P) :
    (Points.next s).2.blank_last_point = false := by
  rcases next_char s with ⟨_, h⟩ | ⟨_, p, _, h⟩ | ⟨_, _, _, p, _, h⟩ | ⟨i, hi, h, _⟩ <;>
    rw [h]

/-- An iterator step never changes the frame. -/
theorem next_frame_eq (s : Streamer P) : (Points.next s).2.frame = s.frame := by
  rcases next_char s with ⟨_, h⟩ | ⟨_, p, _, h⟩ | ⟨_, _, _, p, _, h⟩ | ⟨i, hi, h, _⟩ <;>
    rw [h]

theorem lastAfter_eq_getLast (lp : Option P) (l : List P) (h : l ≠ []) :
    lastAfter lp l = some (l.getLast h) := by
  induction l generalizing lp with
  | nil => exact absurd rfl h
  | cons x t ih =>
    cases t with
    | nil => rfl
    | cons y u => rw [List.getLast_cons (by simp)]; exact ih (some x) (by simp)

/-- A run of regular emissions: with the flag clear and `k` more indices in
range, `k` pulls yield exactly the `k` frame points from the resume index, in
order, advancing the index by `k`. -/
theorem pullN_regular_run (f : List P) :
    ∀ (k i : Nat) (lp : Option P), i + k ≤ f.length →
      pullN ⟨f, lp, false, i⟩ k =
        (((f.drop i).take k).map Point.Regular,
          ⟨f, lastAfter lp ((f.drop i).take k), false, i + k⟩) := by
  intro k
  induction k with
  | zero => intro i lp _; simp [pullN, lastAfter]
  | succ k ih =>
    intro i lp h
    have hi : i < f.length := by omega
    have hdrop : f.drop i = f.get ⟨i, hi⟩ :: f.drop (i + 1) :=
      List.drop_eq_getElem_cons hi
    rw [show pullN ⟨f, lp, false, i⟩ (k + 1) =
        match Points.next ⟨f, lp, false, i⟩ with
        | (none, s2) => pullN s2 k
        | (some p, s2) =>
          let r := pullN s2 k
          (p :: r.fst, r.snd) from rfl,
      next_regular lp hi]
    show (Point.Regular (f.get ⟨i, hi⟩) ::
        (pullN ⟨f, some (f.get ⟨i, hi⟩), false, i + 1⟩ k).fst,
      (pullN ⟨f, some (f.get ⟨i, hi⟩), false, i + 1⟩ k).snd) = _
    rw [ih (i + 1) (some (f.get ⟨i, hi⟩)) (by omega)]
    simp only [hdrop, List.take_succ_cons, List.map_cons, lastAfter]
    rw [show i + 1 + k = i + (k + 1) by omega]

/-- Pulling `m + n` items is pulling `m`, then `n` from the resulting state. -/
theorem pullN_add (m n : Nat) (s : Streamer P) :
    pullN s (m + n) =
      ((pullN s m).fst ++ (pullN (pullN s m).snd n).fst,
        (pullN (pullN s m).snd n).snd) := by
  induction m generalizing s with
  | zero => simp [pullN]
  | succ m ih =>
    rw [show m + 1 + n = (m + n) + 1 by omega]
    show (match Points.next s with
        | (none, s2) => pullN s2 (m + n)
        | (some p, s2) =>
          let r := pullN s2 (m + n)
          (p :: r.fst, r.snd)) = _
    rcases hn : Points.next s with ⟨op, s2⟩
    cases op with
    | none =>
      show pullN s2 (m + n) = _
      rw [ih s2]
      have : pullN s (m + 1) = pullN s2 m := by
        show (match Points.next s with
          | (none, s2) => pullN s2 m
          | (some p, s2) =>
            let r := pullN s2 m
            (p :: r.fst, r.snd)) = _
        rw [hn]
      rw [this]
    | some p =>
      show (p :: (pullN s2 (m + n)).fst, (pullN s2 (m + n)).snd) = _
      rw [ih s2]
      have : pullN s (m + 1) =
          (p :: (pullN s2 m).fst, (pullN s2 m).snd) := by
        show (match Points.next s with
          | (none, s2) => pullN s2 m
          | (some p, s2) =>
            let r := pullN s2 m
            (p :: r.fst, r.snd)) = _
        rw [hn]
      rw [this]
      simp

/-- On an empty frame with the flag clear, any number of pulls yields nothing
and leaves the state untouched. -/
theorem pullN_empty (lp : Option P) (i : Nat) (n : Nat) :
    pullN ⟨[], lp, false, i⟩ n = ([], ⟨[], lp, false, i⟩) := by
  induction n with
  | zero => rfl
  | succ n ih =>
    show (match Points.next ⟨[], lp, false, i⟩ with
      | (none, s2) => pullN s2 n
      | (some p, s2) =>
        let r := pullN s2 n
        (p :: r.fst, r.snd)) = _
    rw [next_empty]
    exact ih

/-- With the flag set but no last point recorded, a non-empty batch of pulls
behaves exactly as with the flag clear: the phantom blank is invisible. -/
theorem pullN_flag_none (f : List P) (i n : Nat) :
    pullN ⟨f, none, true, i⟩ (n + 1) = pullN ⟨f, none, false, i⟩ (n + 1) := by
  show (match Points.next ⟨f, none, true, i⟩ with
      | (none, s2) => pullN s2 n
      | (some p, s2) =>
        let r := pullN s2 n
        (p :: r.fst, r.snd)) =
    (match Points.next ⟨f, none, false, i⟩ with
      | (none, s2) => pullN s2 n
      | (some p, s2) =>
        let r := pullN s2 n
        (p :: r.fst, r.snd))
  rw [next_flag_none]

/-- Every blank yielded over an arbitrary operation sequence is grounded:
its payload is in `E` whenever all recorded last points are. -/
theorem run_blanks_grounded :
    ∀ (ops : List (Op P)) (E : P → Prop) (s : Streamer P),
      (∀ p, s.last_point = some p → E p) → BlanksGrounded E (run s ops) := by
  intro ops
  induction ops with
  | nil => intro E s _; exact BlanksGrounded.nil E
  | cons o ops ih =>
    intro E s hlast
    cases o with
    | submit f =>
      show BlanksGrounded E (run (s.submit_frame f) ops)
      exact ih E _ (fun p hp => hlast p hp)
    | pull =>
      show BlanksGrounded E
        (match Points.next s with
          | (none, s2) => run s2 ops
          | (some p, s2) => p :: run s2 ops)
      rcases next_char s with ⟨hf, hnext⟩ | ⟨hb, p, hp, hnext⟩ |
        ⟨hb, hne, hle, p, hp, hnext⟩ | ⟨i, hi, hnext, hor⟩
      · rw [hnext]
        exact ih E _ (fun q hq => hlast q hq)
      · rw [hnext]
        exact BlanksGrounded.blank E p _ (hlast p hp)
          (ih E _ (fun q hq => hlast q hq))
      · rw [hnext]
        refine BlanksGrounded.blank E p _ (hlast p hp) (ih E _ ?_)
        intro q hq
        obtain rfl : p = q := Option.some.inj hq
        exact hlast p hp
      · rw [hnext]
        refine BlanksGrounded.reg E _ _ (ih _ _ ?_)
        intro q hq
        exact Or.inr (Option.some.inj hq).symm

theorem noAdjacentBlanks_cons (a : Point P) (l : List (Point P)) :
    noAdjacentBlanks (a :: l) = true ↔
      (∀ b ∈ l.head?, (!isBlank a || !isBlank b) = true) ∧
        noAdjacentBlanks l = true := by
  cases l with
  | nil => simp [noAdjacentBlanks]
  | cons b t => simp [noAdjacentBlanks, and_comm]

/-- Pulls from a state with the flag clear never produce two blanks in a
row: each blank comes from a wrap and is followed (if anything follows) by
the first point of the frame. -/
theorem pullN_noAdjacentBlanks (n : Nat) :
    ∀ s : Streamer P, s.blank_last_point = false →
      noAdjacentBlanks (pullN s n).fst = true := by
  induction n with
  | zero => intro s _; rfl
  | succ n ih =>
    intro s hs
    show noAdjacentBlanks
      (match Points.next s with
        | (none, s2) => pullN s2 n
        | (some p, s2) =>
          let r := pullN s2 n
          (p :: r.fst, r.snd)).fst = true
    rcases next_char s with ⟨hf, hnext⟩ | ⟨hb, p, hp, hnext⟩ |
      ⟨hb, hne, hle, p, hp, hnext⟩ | ⟨i, hi, hnext, hor⟩
    · rw [hnext]
      exact ih _ rfl
    · rw [hb] at hs; cases hs
    · rw [hnext]
      show noAdjacentBlanks
        (Point.Blank p :: (pullN ⟨s.frame, some p, false, 0⟩ n).fst) = true
      rw [noAdjacentBlanks_cons]
      refine ⟨?_, ih _ rfl⟩
      intro b hb2
      cases n with
      | zero => simp [pullN] at hb2
      | succ m =>
        rw [show pullN ⟨s.frame, some p, false, 0⟩ (m + 1) =
            (Point.Regular (s.frame.get ⟨0, List.length_pos.mpr hne⟩) ::
              (pullN ⟨s.frame, some (s.frame.get ⟨0, List.length_pos.mpr hne⟩),
                false, 1⟩ m).fst,
              (pullN ⟨s.frame, some (s.frame.get ⟨0, List.length_pos.mpr hne⟩),
                false, 1⟩ m).snd) from by
          show (match Points.next ⟨s.frame, some p, false, 0⟩ with
            | (none, s2) => pullN s2 m
            | (some q, s2) =>
              let r := pullN s2 m
              (q :: r.fst, r.snd)) = _
          rw [next_regular (some p) (List.length_pos.mpr hne)]] at hb2
        simp only [List.head?_cons, Option.mem_def, Option.some.injEq] at hb2
        subst hb2
        rfl
    · rw [hnext]
      show noAdjacentBlanks
        (Point.Regular (s.frame.get ⟨i, hi⟩) ::
          (pullN ⟨s.frame, some (s.frame.get ⟨i, hi⟩), false, i + 1⟩ n).fst) = true
      rw [noAdjacentBlanks_cons]
      exact ⟨fun b _ => rfl, ih _ rfl⟩

/-- A submit-free operation sequence is just a batch of pulls. -/
theorem run_pulls_eq_pullN :
    ∀ (ops : List (Op P)) (s : Streamer P), (∀ o ∈ ops, o = Op.pull) →
      run s ops = (pullN s ops.length).fst := by
  intro ops
  induction ops with
  | nil => intro s _; rfl
  | cons o ops ih =>
    intro s h
    obtain rfl : o = Op.pull := h o (List.mem_cons_self o ops)
    show (match Points.next s with
        | (none, s2) => run s2 ops
        | (some p, s2) => p :: run s2 ops) =
      (match Points.next s with
        | (none, s2) => pullN s2 ops.length
        | (some p, s2) =>
          let r := pullN s2 ops.length
          (p :: r.fst, r.snd)).fst
    rcases hn : Points.next s with ⟨op, s2⟩
    cases op with
    | none => exact ih s2 (fun o ho => h o (List.mem_cons_of_mem _ ho))
    | some p =>
      show p :: run s2 ops = p :: (pullN s2 ops.length).fst
      rw [ih s2 (fun o ho => h o (List.mem_cons_of_mem _ ho))]

/-- State invariant over all reachable states: the resume index never
exceeds the frame length, a positive resume index means a point has been
recorded, and a set pending-blank flag means the resume index is 0. -/
theorem reachable_invariant {s : Streamer P} (h : Reachable s) :
    s.next_start ≤ s.frame.length ∧
      (0 < s.next_start → ∃ p, s.last_point = some p) ∧
      (s.blank_last_point = true → s.next_start = 0) := by
  induction h with
  | new =>
    exact ⟨Nat.le_refl 0,
      fun h0 => absurd h0 (by simp [Streamer.new, Streamer.from_frame]),
      fun hb => rfl⟩
  | from_frame f =>
    exact ⟨Nat.zero_le _, fun h0 => absurd h0 (by simp [Streamer.from_frame]),
      fun hb => rfl⟩
  | submit f _ ih =>
    exact ⟨Nat.zero_le _, fun h0 => absurd h0 (by simp [Streamer.submit_frame]),
      fun hb => rfl⟩
  | step hr ih =>
    rename_i s'
    obtain ⟨ih1, ih2, ih3⟩ := ih
    rcases next_char s' with ⟨hf, hnext⟩ | ⟨hb, p, hp, hnext⟩ |
      ⟨hb, hne, hle, p, hp, hnext⟩ | ⟨i, hi, hnext, hor⟩
    · rw [hnext]
      exact ⟨ih1, ih2, fun hb => by cases hb⟩
    · rw [hnext]
      exact ⟨ih1, fun _ => ⟨p, hp⟩, fun hb => by cases hb⟩
    · rw [hnext]
      exact ⟨Nat.zero_le _, fun h0 => absurd h0 (by simp), fun _ => rfl⟩
    · rw [hnext]
      exact ⟨hi, fun _ => ⟨_, rfl⟩, fun hb => by cases hb⟩

/-- C1, counterexample to the claim as stated: for F = [0] (N = 1), pulling
2N = 2 items yields only [Regular 0, Blank 0], not the 2N+1-element list
[Regular 0, Blank 0, Regular 0] the claim describes. -/
theorem two_n_pulls_cex :
    ¬ ((pullN (Streamer.from_frame [(0 : Nat)]) (2 * 1)).fst =
      [Point.Regular 0, Point.Blank 0, Point.Regular 0]) := by
  decide

/-- C1 (amended): for every non-empty frame F of length N, pulling 2N+1
items from a fresh `from_frame F` streamer yields the N points of F in order
as Regular (no blank before the first item), then a Blank carrying the last
point of F, then the N points of F again in order as Regular. -/
theorem cycle_pull_2n_plus_1 (F : List P) (h : F ≠ []) :
    (pullN (Streamer.from_frame F) (2 * F.length + 1)).fst =
      F.map Point.Regular ++
        Point.Blank (F.getLast h) :: F.map Point.Regular := by
  have h1 : pullN (Streamer.from_frame F) F.length =
      (F.map Point.Regular,
        ⟨F, some (F.getLast h), false, F.length⟩) := by
    have := pullN_regular_run F F.length 0 none (by omega)
    simpa [Streamer.from_frame, lastAfter_eq_getLast none F h] using this
  have h2 : (pullN (⟨F, some (F.getLast h), false, F.length⟩ : Streamer P)
      (F.length + 1)).fst =
      Point.Blank (F.getLast h) :: F.map Point.Regular := by
    show (match Points.next ⟨F, some (F.getLast h), false, F.length⟩ with
      | (none, s2) => pullN s2 F.length
      | (some q, s2) =>
        let r := pullN s2 F.length
        (q :: r.fst, r.snd)).fst = _
    rw [next_wrap (F.getLast h) h (Nat.le_refl _)]
    show Point.Blank (F.getLast h) ::
        (pullN ⟨F, some (F.getLast h), false, 0⟩ F.length).fst = _
    rw [pullN_regular_run F F.length 0 (some (F.getLast h)) (by omega)]
    simp
  rw [show 2 * F.length + 1 = F.length + (F.length + 1) by omega,
    pullN_add, h1]
  show F.map Point.Regular ++
      (pullN ⟨F, some (F.getLast h), false, F.length⟩ (F.length + 1)).fst = _
  rw [h2]

/-- C1 witness: the amended theorem at the concrete frame [0]. -/
theorem cycle_pull_2n_plus_1_witness :
    (pullN (Streamer.from_frame [(0 : Nat)]) (2 * [(0 : Nat)].length + 1)).fst =
      [(0 : Nat)].map Point.Regular ++
        Point.Blank ([(0 : Nat)].getLast (by decide)) ::
          [(0 : Nat)].map Point.Regular :=
  cycle_pull_2n_plus_1 [(0 : Nat)] (by decide)

/-- C2: from any streamer whose most recently recorded point is `p`,
submitting frame F2 makes the very next pulled item `Blank p`, followed by
the points of F2 in order as Regular; if F2 is empty, only `Blank p` is
yielded no matter how many pulls are attempted. -/
theorem submit_midstream_blank_then_new_frame (s : Streamer P)
    (F2 : List P) (p : P) (h : s.last_point = some p) :
    (pullN (s.submit_frame F2) (F2.length + 1)).fst =
      Point.Blank p :: F2.map Point.Regular ∧
    (F2 = [] → ∀ n : Nat,
      (pullN (s.submit_frame F2) (n + 1)).fst = [Point.Blank p]) := by
  rcases s with ⟨f0, lp, b, i⟩
  obtain rfl : lp = some p := h
  have hsub : Streamer.submit_frame ⟨f0, some p, b, i⟩ F2 =
      (⟨F2, some p, true, 0⟩ : Streamer P) := rfl
  constructor
  · rw [hsub]
    show (match Points.next ⟨F2, some p, true, 0⟩ with
      | (none, s2) => pullN s2 F2.length
      | (some q, s2) =>
        let r := pullN s2 F2.length
        (q :: r.fst, r.snd)).fst = _
    rw [next_blank_flag]
    show Point.Blank p :: (pullN ⟨F2, some p, false, 0⟩ F2.length).fst = _
    rw [pullN_regular_run F2 F2.length 0 (some p) (by omega)]
    simp
  · rintro rfl n
    rw [hsub]
    show (match Points.next ⟨([] : List P), some p, true, 0⟩ with
      | (none, s2) => pullN s2 n
      | (some q, s2) =>
        let r := pullN s2 n
        (q :: r.fst, r.snd)).fst = _
    rw [next_blank_flag]
    show Point.Blank p :: (pullN ⟨([] : List P), some p, false, 0⟩ n).fst = _
    rw [pullN_empty]

/-- C2 witness: a concrete mid-stream state with last point 7, submitting
the two-point frame [8, 9]. -/
theorem submit_midstream_witness :
    (pullN ((⟨[(5 : Nat)], some 7, false, 1⟩ : Streamer Nat).submit_frame
        [8, 9]) ([(8 : Nat), 9].length + 1)).fst =
      Point.Blank 7 :: [(8 : Nat), 9].map Point.Regular ∧
    ([(8 : Nat), 9] = [] → ∀ n : Nat,
      (pullN ((⟨[(5 : Nat)], some 7, false, 1⟩ : Streamer Nat).submit_frame
          [8, 9]) (n + 1)).fst = [Point.Blank 7]) :=
  submit_midstream_blank_then_new_frame ⟨[5], some 7, false, 1⟩ [8, 9] 7 rfl

/-- C3: partial consumption is durable: after pulling K < N items from a
fresh length-N frame, the next `next_points` iterator resumes at index K
(0-indexed), yielding the remaining points of F, not a restart from 0. -/
theorem partial_consumption_durable (F : List P) (K : Nat)
    (h : K < F.length) :
    (pullN ((pullN (Streamer.from_frame F) K).snd.next_points)
        (F.length - K)).fst = (F.drop K).map Point.Regular := by
  have h1 := pullN_regular_run F K 0 none (by omega)
  have hfr : Streamer.from_frame F = (⟨F, none, false, 0⟩ : Streamer P) := rfl
  rw [hfr, h1]
  show (pullN ⟨F, lastAfter none ((F.drop 0).take K), false, 0 + K⟩
    (F.length - K)).fst = _
  rw [show (0 + K) = K from Nat.zero_add K,
    pullN_regular_run F (F.length - K) K _ (by omega)]
  show ((F.drop K).take (F.length - K)).map Point.Regular = _
  rw [show F.length - K = (F.drop K).length by rw [List.length_drop],
    List.take_length]

/-- C3 witness: frame [0, 1, 2], pull K = 1 item, resume yields [1, 2]. -/
theorem partial_consumption_durable_witness :
    (pullN ((pullN (Streamer.from_frame [(0 : Nat), 1, 2]) 1).snd.next_points)
        ([(0 : Nat), 1, 2].length - 1)).fst =
      ([(0 : Nat), 1, 2].drop 1).map Point.Regular :=
  partial_consumption_durable [(0 : Nat), 1, 2] 1 (by decide)

/-- C4: submitting a non-empty frame F to a streamer from which nothing has
ever been emitted (`last_point` is none) produces no blank at all: all of
the first N pulled items are the points of F as Regular, starting with
`Regular F[0]`; no phantom blank is observed. -/
theorem submit_before_any_emission_no_blank (s : Streamer P) (F : List P)
    (h1 : s.last_point = none) (h2 : F ≠ []) :
    (pullN (s.submit_frame F) F.length).fst = F.map Point.Regular := by
  rcases s with ⟨f0, lp, b, i⟩
  obtain rfl : lp = none := h1
  have hsub : Streamer.submit_frame ⟨f0, none, b, i⟩ F =
      (⟨F, none, true, 0⟩ : Streamer P) := rfl
  rw [hsub]
  obtain ⟨m, hm⟩ : ∃ m, F.length = m + 1 :=
    ⟨F.length - 1, by have := List.length_pos.mpr h2; omega⟩
  rw [hm, pullN_flag_none, ← hm,
    pullN_regular_run F F.length 0 none (by omega)]
  simp

/-- C4 witness: a fresh streamer (nothing emitted), submit [4, 5]: the two
pulled items are exactly [Regular 4, Regular 5]. -/
theorem submit_before_any_emission_no_blank_witness :
    (pullN ((Streamer.new (P := Nat)).submit_frame [4, 5])
        [(4 : Nat), 5].length).fst = [(4 : Nat), 5].map Point.Regular :=
  submit_before_any_emission_no_blank Streamer.new [4, 5] rfl (by decide)

/-- C5: a freshly constructed streamer with an empty frame (`new`, or
`from_frame []`) yields no items at all, for any number of pull attempts on
the iterator obtained from `next_points`. -/
theorem empty_frame_yields_nothing (n : Nat) :
    (pullN ((Streamer.new (P := P)).next_points) n).fst = [] ∧
    (pullN ((Streamer.from_frame ([] : List P)).next_points) n).fst = [] :=
  ⟨congrArg Prod.fst (pullN_empty none 0 n),
    congrArg Prod.fst (pullN_empty none 0 n)⟩

/-- C6: concrete scenario: frame [A, B, C], fresh streamer, pulling 5 items
yields [Regular A, Regular B, Regular C, Blank C, Regular A]. -/
theorem concrete_abc_five_pulls (A B C : P) :
    (pullN (Streamer.from_frame [A, B, C]) 5).fst =
      [Point.Regular A, Point.Regular B, Point.Regular C, Point.Blank C,
        Point.Regular A] :=
  rfl

/-- C7, counterexample to the claim as stated: starting from frame [0],
pulling twice (Regular 0, then the wrap Blank 0), then submitting [1] and
pulling again yields a second consecutive Blank 0: the full yield stream
[Regular 0, Blank 0, Blank 0] has two blanks in a row. -/
theorem adjacent_blanks_after_submit_cex :
    run (Streamer.from_frame [(0 : Nat)])
        [Op.pull, Op.pull, Op.submit [1], Op.pull] =
      [Point.Regular 0, Point.Blank 0, Point.Blank 0] ∧
    noAdjacentBlanks
        (run (Streamer.from_frame [(0 : Nat)])
          [Op.pull, Op.pull, Op.submit [1], Op.pull]) = false := by
  decide

/-- C7 (amended): over every operation sequence, every Blank yielded carries
the payload of some previously yielded Regular point; and as long as no
`submit_frame` occurs in the sequence, the yielded items never contain two
Blanks in a row (a frame replacement immediately after a wrap blank can
produce two consecutive blanks, as the counterexample shows). -/
theorem blanks_grounded_no_adjacent (f : List P) (ops : List (Op P)) :
    BlanksGrounded (fun _ => False) (run (Streamer.from_frame f) ops) ∧
    ((∀ o ∈ ops, o = Op.pull) →
      noAdjacentBlanks (run (Streamer.from_frame f) ops) = true) := by
  constructor
  · exact run_blanks_grounded ops _ _ (fun p hp => Option.noConfusion hp)
  · intro hops
    rw [run_pulls_eq_pullN ops _ hops]
    exact pullN_noAdjacentBlanks ops.length _ rfl

/-- C7 witness: the amended theorem at frame [0] with three pulls. -/
theorem blanks_grounded_no_adjacent_witness :
    BlanksGrounded (fun _ => False)
        (run (Streamer.from_frame [(0 : Nat)]) [Op.pull, Op.pull, Op.pull]) ∧
    noAdjacentBlanks
        (run (Streamer.from_frame [(0 : Nat)])
          [Op.pull, Op.pull, Op.pull]) = true :=
  ⟨(blanks_grounded_no_adjacent [(0 : Nat)] [Op.pull, Op.pull, Op.pull]).1,
    (blanks_grounded_no_adjacent [(0 : Nat)] [Op.pull, Op.pull, Op.pull]).2
      (by decide)⟩

/-- C8: on every reachable streamer state, `next_start` lies in
[0, frame.length]; and when it equals `frame.length` (frame non-empty, i.e.
the frame is exhausted), a wrap is pending: a point is recorded and the next
pull emits its Blank and resets the resume index to 0. -/
theorem next_start_invariant {s : Streamer P} (h : Reachable s) :
    s.next_start ≤ s.frame.length ∧
      (s.next_start = s.frame.length → s.frame ≠ [] →
        ∃ p, s.last_point = some p ∧
          Points.next s =
            (some (Point.Blank p), ⟨s.frame, some p, false, 0⟩)) := by
  obtain ⟨h1, h2, h3⟩ := reachable_invariant h
  refine ⟨h1, fun heq hne => ?_⟩
  have hpos : 0 < s.next_start := by
    rw [heq]; exact List.length_pos.mpr hne
  obtain ⟨p, hp⟩ := h2 hpos
  have hb : s.blank_last_point = false := by
    cases hbv : s.blank_last_point
    · rfl
    · exact absurd (h3 hbv) (by omega)
  refine ⟨p, hp, ?_⟩
  rcases s with ⟨f, lp, b, i⟩
  obtain rfl : lp = some p := hp
  obtain rfl : b = false := hb
  exact next_wrap p hne (Nat.le_of_eq heq.symm)

/-- C8 witness: the invariant at the reachable state obtained by one
iterator step from `from_frame [0]` (resume index 1 = frame length: wrap
pending). -/
theorem next_start_invariant_witness :
    (Points.next (Streamer.from_frame [(0 : Nat)])).snd.next_start ≤
        (Points.next (Streamer.from_frame [(0 : Nat)])).snd.frame.length ∧
      ((Points.next (Streamer.from_frame [(0 : Nat)])).snd.next_start =
          (Points.next (Streamer.from_frame [(0 : Nat)])).snd.frame.length →
        (Points.next (Streamer.from_frame [(0 : Nat)])).snd.frame ≠ [] →
        ∃ p, (Points.next (Streamer.from_frame [(0 : Nat)])).snd.last_point =
            some p ∧
          Points.next (Points.next (Streamer.from_frame [(0 : Nat)])).snd =
            (some (Point.Blank p),
              ⟨(Points.next (Streamer.from_frame [(0 : Nat)])).snd.frame,
                some p, false, 0⟩)) :=
  next_start_invariant (Reachable.step (Reachable.from_frame [(0 : Nat)]))

/-- C9: each call to `Points::next` terminates within two iterations of the
internal retry loop: any fuel ≥ 2 computes the same result as `next`, and
the loop body either returns on its first iteration or continues once and
returns on the second. -/
theorem next_loop_two_iterations (s : Streamer P) :
    (∀ n, 2 ≤ n → Points.nextFuel n s = Points.next s) ∧
    ((∃ r, Points.loopBody s = Sum.inl r) ∨
      (∃ t r, Points.loopBody s = Sum.inr t ∧
        Points.loopBody t = Sum.inl r)) := by
  refine ⟨fun n hn => nextFuel_ge_two s hn, ?_⟩
  cases hb : Points.loopBody s with
  | inl r => exact Or.inl ⟨r, rfl⟩
  | inr t =>
    obtain ⟨r, hr⟩ := loopBody_after_inr hb
    exact Or.inr ⟨t, r, rfl, hr⟩

/-- C9 witness: fuel 5 computes the same as `next` on a concrete state. -/
theorem next_loop_two_iterations_witness :
    Points.nextFuel 5 (Streamer.from_frame [(0 : Nat)]) =
      Points.next (Streamer.from_frame [(0 : Nat)]) :=
  (next_loop_two_iterations (Streamer.from_frame [(0 : Nat)])).1 5 (by decide)

/-- C10: whenever `next` returns no item, the frame is empty, and the call
leaves the frame, `last_point` and `next_start` unchanged; the only field
possibly modified is the pending-blank flag, which ends up cleared (so a
pending blank may be dropped without any blank being observed). -/
theorem next_none_effect (s : Streamer P) (h : (Points.next s).fst = none) :
    s.frame = [] ∧ (Points.next s).snd.frame = s.frame ∧
      (Points.next s).snd.last_point = s.last_point ∧
      (Points.next s).snd.next_start = s.next_start ∧
      (Points.next s).snd.blank_last_point = false := by
  rcases next_char s with ⟨hf, hnext⟩ | ⟨hb, p, hp, hnext⟩ |
    ⟨hb, hne, hle, p, hp, hnext⟩ | ⟨i, hi, hnext, hor⟩
  · rw [hnext]
    exact ⟨hf, rfl, rfl, rfl, rfl⟩
  · rw [hnext] at h; simp at h
  · rw [hnext] at h; simp at h
  · rw [hnext] at h; simp at h

/-- C10 witness: the no-item step on the empty fresh streamer. -/
theorem next_none_effect_witness :
    (Streamer.new (P := Nat)).frame = [] ∧
      (Points.next (Streamer.new (P := Nat))).snd.frame =
        (Streamer.new (P := Nat)).frame ∧
      (Points.next (Streamer.new (P := Nat))).snd.last_point =
        (Streamer.new (P := Nat)).last_point ∧
      (Points.next (Streamer.new (P := Nat))).snd.next_start =
        (Streamer.new (P := Nat)).next_start ∧
      (Points.next (Streamer.new (P := Nat))).snd.blank_last_point = false :=
  next_none_effect (Streamer.new (P := Nat)) (by decide)

end LaserFrame
